import Mathlib

/-!
Verification of the `kvstore` storage engine against its specification.

The Python source is embedded shallowly: byte strings become `List Nat`
(each element a byte value), the append-only data file becomes a byte
list, the in-memory index becomes an association list from keys to
`(offset, length)` pairs mirroring the Python `dict`, and the store
coordinator's operations become explicit state-passing functions.
Fallible code paths return `Option` or `Except`.
-/

namespace KVStore

/-- A byte string: a list of byte values (`bytes` in the source). -/
abbrev Bytes := List Nat

/-- Big-endian 4-byte encoding, as written by `struct.pack` with format
`!I`.  For arguments below `2 ^ 32` this is the exact encoding. -/
def toBE32 (n : Nat) : Bytes :=
  [n / 2 ^ 24 % 256, n / 2 ^ 16 % 256, n / 2 ^ 8 % 256, n % 256]

/-- Big-endian 4-byte decoding, as read by `struct.unpack` with format
`!I`; defined only on exactly four bytes (the source raises otherwise). -/
def fromBE32 : Bytes → Option Nat
  | [a, b, c, d] => some (((a * 256 + b) * 256 + c) * 256 + d)
  | _ => none

/-- Byte-lexicographic order on byte strings: the comparison Python
performs for `start_key <= key <= end_key` on `bytes` values. -/
def bytesLE : Bytes → Bytes → Bool
  | [], _ => true
  | _ :: _, [] => false
  | a :: as, b :: bs =>
    if a < b then true else if b < a then false else bytesLE as bs

/-! ### Append-only data file (`core/datafile.py`) -/

/-- On-disk record layout written by `DataFile.append`:
`[key_len u32 BE][key bytes][value_len u32 BE][value bytes]`. -/
def encodeRecord (key value : Bytes) : Bytes :=
  toBE32 key.length ++ key ++ toBE32 value.length ++ value

/-- `DataFile.append`: extends the file by one record and returns the
new contents together with `(offset, length)` where `offset` is the old
file size and `length` the record length. -/
def dataAppend (data : Bytes) (key value : Bytes) : Bytes × Nat × Nat :=
  (data ++ encodeRecord key value, data.length, (encodeRecord key value).length)

/-- `DataFile.read`: parses the record at `offset` out of the mapped
file.  Returns `none` where the source raises: on an empty file (no
memory map) and on a length-prefix slice shorter than four bytes; the
key and value slices themselves clamp at end of file exactly as Python
slicing does. -/
def readRecord (data : Bytes) (offset : Nat) : Option (Bytes × Bytes) :=
  if data.length = 0 then none
  else
    match fromBE32 ((data.drop offset).take 4) with
    | none => none
    | some keyLen =>
      let key := (data.drop (offset + 4)).take keyLen
      match fromBE32 ((data.drop (offset + 4 + keyLen)).take 4) with
      | none => none
      | some valLen =>
        some (key, (data.drop (offset + 4 + keyLen + 4)).take valLen)

/-! ### In-memory index (`core/index.py`)

The Python `dict` from keys to `(offset, length)` is modelled as an
association list with unique keys; `Index.put` updates an existing
binding in place (as dict assignment does) and otherwise appends. -/

abbrev IndexMap := List (Bytes × Nat × Nat)

/-- `Index.put`: add or update a key. -/
def indexPut (idx : IndexMap) (key : Bytes) (offset length : Nat) : IndexMap :=
  if idx.any (fun e => e.1 == key) then
    idx.map (fun e => if e.1 == key then (key, offset, length) else e)
  else idx ++ [(key, offset, length)]

/-- `Index.get`: offset and length for a key, or `none`. -/
def indexGet (idx : IndexMap) (key : Bytes) : Option (Nat × Nat) :=
  (idx.find? (fun e => e.1 == key)).map (fun e => e.2)

/-- `Index.delete`: remove a key (`dict.pop` with default). -/
def indexDelete (idx : IndexMap) (key : Bytes) : IndexMap :=
  idx.filter (fun e => !(e.1 == key))

/-- `Index.get_range`: all bindings whose key satisfies
`start_key <= key <= end_key`, by a scan of the whole index. -/
def indexGetRange (idx : IndexMap) (startKey endKey : Bytes) : IndexMap :=
  idx.filter (fun e => bytesLE startKey e.1 && bytesLE e.1 endKey)

/-! ### WAL entries and the store state (`core/wal.py`, `core/store.py`) -/

/-- A deserialized WAL entry: the `op`, `key` and optional `value`
fields of the dictionary pickled by `WAL.log` (the timestamp plays no
role in recovery and is omitted). -/
inductive WalEntry
  | put (key value : Bytes)
  | del (key : Bytes)
  deriving DecidableEq

/-- The observable state of one `KVStore`: the WAL contents as logged
entries, the data file bytes, and the in-memory index. -/
structure StoreState where
  wal : List WalEntry
  data : Bytes
  index : IndexMap
  deriving DecidableEq

/-- A freshly created store over an empty directory. -/
def initState : StoreState := { wal := [], data := [], index := [] }

/-- Phase 2 of `KVStore.put` (also the `put` arm of recovery): append
the record to the data file and install the index entry. -/
def applyPut (st : StoreState) (key value : Bytes) : StoreState :=
  match dataAppend st.data key value with
  | (data2, offset, length) =>
    { st with data := data2, index := indexPut st.index key offset length }

/-- `KVStore.put`: WAL entry first, then data-file append and index
update.  Always returns `true` on the modelled non-throwing path. -/
def storePut (st : StoreState) (key value : Bytes) : Bool × StoreState :=
  (true, applyPut { st with wal := st.wal ++ [WalEntry.put key value] } key value)

/-- Shared core of `KVStore.read`: index lookup, record read, stored-key
verification. -/
def readDI (data : Bytes) (idx : IndexMap) (key : Bytes) : Option Bytes :=
  match indexGet idx key with
  | none => none
  | some (offset, _) =>
    match readRecord data offset with
    | none => none
    | some (storedKey, value) => if storedKey == key then some value else none

/-- `KVStore.read`: value for a key, or `none` when absent or on any
failure inside the guarded block. -/
def storeRead (st : StoreState) (key : Bytes) : Option Bytes :=
  readDI st.data st.index key

/-- `KVStore.delete`: short-circuit `false` when the key is absent, else
log a WAL delete entry, re-check presence, and remove from the index. -/
def storeDelete (st : StoreState) (key : Bytes) : Bool × StoreState :=
  match indexGet st.index key with
  | none => (false, st)
  | some _ =>
    let st2 := { st with wal := st.wal ++ [WalEntry.del key] }
    match indexGet st2.index key with
    | none => (false, st2)
    | some _ => (true, { st2 with index := indexDelete st2.index key })

/-- `KVStore.batch_put`: a length mismatch raises `ValueError` before
anything is written; otherwise all WAL entries are logged in one burst
and then all records are appended and indexed.  The state is returned
alongside the outcome so that the exception path shows it untouched. -/
def batchPut (st : StoreState) (keys values : List Bytes) :
    Except String Bool × StoreState :=
  if keys.length ≠ values.length then
    (Except.error "Keys and values must have the same length", st)
  else
    let pairs := List.zip keys values
    let st1 := { st with wal := st.wal ++ pairs.map (fun p => WalEntry.put p.1 p.2) }
    (Except.ok true, pairs.foldl (fun s p => applyPut s p.1 p.2) st1)

/-- The record-reading loop of `KVStore.read_key_range`; a failing
record read raises out of the guarded block, modelled as `none`. -/
def rangeReadLoop (data : Bytes) : IndexMap → Option (List (Bytes × Bytes))
  | [] => some []
  | e :: rest =>
    match readRecord data e.2.1 with
    | none => none
    | some (storedKey, value) =>
      match rangeReadLoop data rest with
      | none => none
      | some acc => some (if storedKey == e.1 then (e.1, value) :: acc else acc)

/-- `KVStore.read_key_range`: the index range slice read back from the
data file, skipping records whose stored key mismatches; any exception
yields the empty mapping. -/
def storeReadKeyRange (st : StoreState) (startKey endKey : Bytes) :
    List (Bytes × Bytes) :=
  match rangeReadLoop st.data (indexGetRange st.index startKey endKey) with
  | none => []
  | some pairs => pairs

/-! ### Mutation sequences -/

/-- A user-level mutation issued against the store. -/
inductive Op
  | put (key value : Bytes)
  | del (key : Bytes)
  deriving DecidableEq

/-- Apply one mutation. -/
def applyOp (st : StoreState) : Op → StoreState
  | .put k v => (storePut st k v).2
  | .del k => (storeDelete st k).2

/-- Apply a sequence of mutations in order. -/
def applyOps (st : StoreState) (ops : List Op) : StoreState :=
  ops.foldl applyOp st

/-! ### Recovery (`KVStore._recover`) -/

/-- One step of the recovery loop: a `put` entry appends to the data
file and updates the index, a `delete` entry removes from the index. -/
def recoverStep (st : StoreState) : WalEntry → StoreState
  | .put k v => applyPut st k v
  | .del k => { st with index := indexDelete st.index k }

/-- The recovery replay: apply every WAL entry in order. -/
def applyRecover (st : StoreState) (entries : List WalEntry) : StoreState :=
  entries.foldl recoverStep st

/-! ### WAL replay framing (`WAL.replay`)

`WAL.replay` reads the log file bytes directly: a 4-byte big-endian
length prefix followed by that many payload bytes per entry, the payload
being a pickled dictionary.  The byte-level loop is modelled here with
payloads kept opaque; `pickle.loads` raises on a payload truncated short
of its declared length, and `struct.unpack` raises on a length prefix
shorter than four bytes, both modelled as errors. -/

def walReplay (fileBytes : Bytes) : Except String (List Bytes) :=
  if hEmpty : fileBytes = [] then Except.ok []
  else if fileBytes.length < 4 then
    Except.error "struct.error: truncated length prefix"
  else
    match fromBE32 (fileBytes.take 4) with
    | none => Except.error "struct.error: truncated length prefix"
    | some len =>
      let payload := (fileBytes.drop 4).take len
      if payload.length < len then Except.error "pickle: ran out of input"
      else
        match walReplay ((fileBytes.drop 4).drop len) with
        | Except.error e => Except.error e
        | Except.ok rest => Except.ok (payload :: rest)
termination_by fileBytes.length
decreasing_by
  simp only [List.length_drop]
  cases fileBytes with
  | nil => exact absurd rfl hEmpty
  | cons a as => simp; omega

/-! ### Wire protocol (`network/protocol.py`) -/

/-- Python `bytes.replace(pattern, rep)` for a non-empty pattern
`c :: ps`: scan left to right, replacing non-overlapping occurrences. -/
def replaceL (c : Nat) (ps rep : Bytes) : Bytes → Bytes
  | [] => []
  | a :: as =>
    if (c :: ps).isPrefixOf (a :: as) then
      rep ++ replaceL c ps rep (as.drop ps.length)
    else a :: replaceL c ps rep as
termination_by l => l.length
decreasing_by
  · simp only [List.length_cons, List.length_drop]; omega
  · simp

/-- `Protocol.escape`: backslash-escape the set `{\\, \n, \r, \t}` by
four successive `bytes.replace` calls (92 is the backslash byte, 110 is
the letter n, 114 is r, 116 is t). -/
def escape (data : Bytes) : Bytes :=
  replaceL 9 [] [92, 116]
    (replaceL 13 [] [92, 114]
      (replaceL 10 [] [92, 110]
        (replaceL 92 [] [92, 92] data)))

/-- `Protocol.unescape`: undo `escape`, routing doubled backslashes
through the NUL-byte placeholder to avoid double-decoding. -/
def unescape (data : Bytes) : Bytes :=
  replaceL 0 [] [92]
    (replaceL 92 [116] [9]
      (replaceL 92 [114] [13]
        (replaceL 92 [110] [10]
          (replaceL 92 [92] [0] data))))

/-- Helper for `bytes.split(b' ', maxsplit)`: locate the first space
byte, returning the parts before and after it. -/
def splitFirstSpace : Bytes → Option (Bytes × Bytes)
  | [] => none
  | a :: as =>
    if a = 32 then some ([], as)
    else
      match splitFirstSpace as with
      | none => none
      | some (before, after) => some (a :: before, after)

/-- Python `message.split(b' ', maxsplit)`: split at single space bytes
at most `maxsplit` times, keeping empty pieces. -/
def splitSpace (maxsplit : Nat) (l : Bytes) : List Bytes :=
  match maxsplit with
  | 0 => [l]
  | m + 1 =>
    match splitFirstSpace l with
    | none => [l]
    | some (before, after) => before :: splitSpace m after

/-- Python `bytes.upper` on one byte: map a lowercase ASCII letter to
its uppercase form. -/
def byteUpper (b : Nat) : Nat := if 97 ≤ b ∧ b ≤ 122 then b - 32 else b

/-- The ASCII bytes of the token `PUT`. -/
def cmdPUT : Bytes := [80, 85, 84]

/-- The ASCII bytes of the token `BATCHPUT`. -/
def cmdBATCHPUT : Bytes := [66, 65, 84, 67, 72, 80, 85, 84]

/-- The ASCII bytes of the token `READRANGE`. -/
def cmdREADRANGE : Bytes := [82, 69, 65, 68, 82, 65, 78, 71, 69]

/-- The ASCII bytes of the token `READ`. -/
def cmdREAD : Bytes := [82, 69, 65, 68]

/-- The ASCII bytes of the token `DELETE`. -/
def cmdDELETE : Bytes := [68, 69, 76, 69, 84, 69]

/-- The ASCII bytes of the token `REPLICATE`. -/
def cmdREPLICATE : Bytes := [82, 69, 80, 76, 73, 67, 65, 84, 69]

/-- A parsed command: the command name (as its ASCII bytes, the source
uses the decoded string), the key, and the value, the latter two
optional exactly as in the source's return type. -/
abbrev Parsed := Bytes × Option Bytes × Option Bytes

/-- `Protocol._parse_put_command`: a missing third token means an empty
value; the value token is unescaped. -/
def parsePutCommand (parts : List Bytes) : Except String Parsed :=
  if parts.length < 2 then Except.error "PUT requires key"
  else
    let key := parts.getD 1 []
    let value := if parts.length = 3 then parts.getD 2 [] else []
    Except.ok (cmdPUT, some key, some (unescape value))

/-- `Protocol._parse_batchput_command`. -/
def parseBatchputCommand (parts : List Bytes) : Except String Parsed :=
  if parts.length ≠ 3 then Except.error "BATCHPUT requires keys and values"
  else Except.ok (cmdBATCHPUT, some (parts.getD 1 []), some (parts.getD 2 []))

/-- `Protocol._parse_readrange_command`. -/
def parseReadrangeCommand (parts : List Bytes) : Except String Parsed :=
  if parts.length ≠ 3 then Except.error "READRANGE requires start_key and end_key"
  else Except.ok (cmdREADRANGE, some (parts.getD 1 []), some (parts.getD 2 []))

/-- `Protocol._parse_simple_command` for READ and DELETE. -/
def parseSimpleCommand (command : Bytes) (parts : List Bytes) :
    Except String Parsed :=
  if parts.length ≠ 2 then Except.error "command requires key"
  else Except.ok (command, some (parts.getD 1 []), none)

/-- `Protocol._parse_replicate_command`: re-split the whole message with
maxsplit 3 and dispatch on the uppercased subcommand. -/
def parseReplicateCommand (message : Bytes) : Except String Parsed :=
  let subparts := splitSpace 3 message
  if subparts.length < 2 then Except.error "REPLICATE requires subcommand"
  else
    let subcommand := (subparts.getD 1 []).map byteUpper
    if subcommand == cmdPUT then
      if subparts.length ≠ 4 then Except.error "REPLICATE PUT requires key and value"
      else Except.ok (cmdREPLICATE ++ [95] ++ cmdPUT,
                      some (subparts.getD 2 []), some (subparts.getD 3 []))
    else if subcommand == cmdBATCHPUT then
      if subparts.length ≠ 4 then Except.error "REPLICATE BATCHPUT requires keys and values"
      else Except.ok (cmdREPLICATE ++ [95] ++ cmdBATCHPUT,
                      some (subparts.getD 2 []), some (subparts.getD 3 []))
    else if subcommand == cmdDELETE then
      if subparts.length ≠ 3 then Except.error "REPLICATE DELETE requires key"
      else Except.ok (cmdREPLICATE ++ [95] ++ cmdDELETE,
                      some (subparts.getD 2 []), none)
    else Except.error "Unknown REPLICATE subcommand"

/-- `Protocol.parse_command`: split the message into at most three
tokens, uppercase the first, and dispatch. -/
def parseCommand (message : Bytes) : Except String Parsed :=
  let parts := splitSpace 2 message
  let command := (parts.headD []).map byteUpper
  if command == cmdREPLICATE then parseReplicateCommand message
  else if command == cmdPUT then parsePutCommand parts
  else if command == cmdBATCHPUT then parseBatchputCommand parts
  else if command == cmdREADRANGE then parseReadrangeCommand parts
  else if command == cmdREAD || command == cmdDELETE then
    parseSimpleCommand command parts
  else Except.error "Unknown command"

/-! ### Reader-writer lock (`utils/rwlock.py`)

The monitor is modelled as a state machine.  Acquisition events either
grant the lock at once or park the thread on the corresponding
condition variable, exactly following the guard each Python method
checks in its while loop; release events re-run the woken threads
against those guards. -/

/-- The monitor state of one `RWLock`, together with the identities of
the holding and parked threads. -/
structure RWLockState where
  readers : Nat
  writer : Bool
  waitingReaders : List Nat
  waitingWriters : List Nat
  readHolders : List Nat
  writeHolder : Option Nat
  deriving DecidableEq

/-- A freshly constructed `RWLock`. -/
def rwInit : RWLockState :=
  { readers := 0, writer := false, waitingReaders := [], waitingWriters := [],
    readHolders := [], writeHolder := none }

/-- Lock events: a thread (identified by a number) calls one of the four
methods. -/
inductive RWEvent
  | acquireRead (tid : Nat)
  | acquireWrite (tid : Nat)
  | releaseRead (tid : Nat)
  | releaseWrite (tid : Nat)
  deriving DecidableEq

/-- One event against the monitor.  `acquire_read` waits only while a
writer is active; `acquire_write` waits while readers or a writer are
active; `release_read` notifies one waiting writer when the reader count
reaches zero; `release_write` notifies one waiting writer and then all
waiting readers, each re-checking its guard on wakeup. -/
def rwStep (s : RWLockState) : RWEvent → RWLockState
  | .acquireRead t =>
    if s.writer then { s with waitingReaders := s.waitingReaders ++ [t] }
    else { s with readers := s.readers + 1, readHolders := s.readHolders ++ [t] }
  | .acquireWrite t =>
    if s.readers > 0 ∨ s.writer then
      { s with waitingWriters := s.waitingWriters ++ [t] }
    else { s with writer := true, writeHolder := some t }
  | .releaseRead t =>
    let s1 := { s with readers := s.readers - 1,
                       readHolders := s.readHolders.erase t }
    if s1.readers = 0 then
      match s1.waitingWriters with
      | [] => s1
      | w :: ws =>
        if s1.writer then s1
        else { s1 with writer := true, writeHolder := some w, waitingWriters := ws }
    else s1
  | .releaseWrite _ =>
    let s1 := { s with writer := false, writeHolder := none }
    match s1.waitingWriters with
    | w :: ws =>
      if s1.readers = 0 then
        { s1 with writer := true, writeHolder := some w, waitingWriters := ws }
      else s1
    | [] =>
      { s1 with readers := s1.readers + s1.waitingReaders.length,
                readHolders := s1.readHolders ++ s1.waitingReaders,
                waitingReaders := [] }

/-- Run a sequence of lock events from the initial state. -/
def rwRun (events : List RWEvent) : RWLockState :=
  events.foldl rwStep rwInit

/-! ### Replication pipeline (`replication/replicator.py`) -/

/-- A follower endpoint, keyed by host and port as in the replica
manager (hosts abstracted to numbers). -/
abbrev Replica := Nat × Nat

/-- A `ReplicationOperation`: operation name, payload fields, and the
mutable retry counter. -/
structure RepOp where
  op : String
  key : Option Bytes := none
  value : Option Bytes := none
  keys : Option (List Bytes) := none
  values : Option (List Bytes) := none
  retryCount : Nat := 0
  deriving DecidableEq

/-- The replicator counters guarded by `stats_lock`. -/
structure RepStats where
  totalOperations : Nat
  successfulReplications : Nat
  failedReplications : Nat
  droppedOperations : Nat
  deriving DecidableEq

/-- Python `Queue(maxsize).put_nowait` raises `Full` exactly when
`maxsize` is positive and the queue already holds that many items. -/
def queueFull (q : List RepOp) (maxsize : Nat) : Bool :=
  0 < maxsize && maxsize ≤ q.length

/-- `Replicator._replicate_to_all`: dispatch to every healthy follower;
with zero healthy followers count a failure and return; with zero
successes count a failure and, when the retry count is below
`max_retries`, re-enqueue the op with the count incremented, silently
giving up when the queue is full.  `dispatchOk` abstracts the outcome of
`_replicate_to_replica` per follower.  Returns the outcome, the new
queue, and the new counters. -/
def replicateToAll (healthy : List Replica) (dispatchOk : RepOp → Replica → Bool)
    (maxRetries : Nat) (op : RepOp) (q : List RepOp) (qMaxsize : Nat)
    (stats : RepStats) : Bool × List RepOp × RepStats :=
  if healthy.isEmpty then
    (false, q, { stats with failedReplications := stats.failedReplications + 1 })
  else
    let successCount := (healthy.filter (fun r => dispatchOk op r)).length
    if successCount > 0 then
      (true, q,
       { stats with successfulReplications := stats.successfulReplications + 1 })
    else
      let stats1 := { stats with failedReplications := stats.failedReplications + 1 }
      if op.retryCount < maxRetries then
        let op1 := { op with retryCount := op.retryCount + 1 }
        if queueFull q qMaxsize then (false, q, stats1)
        else (false, q ++ [op1], stats1)
      else (false, q, stats1)

/-- `Replicator._enqueue_operation` in async mode: count the operation,
then enqueue it, dropping it (and counting the drop) when the queue is
full. -/
def enqueueOperationAsync (op : RepOp) (q : List RepOp) (qMaxsize : Nat)
    (stats : RepStats) : Bool × List RepOp × RepStats :=
  let stats1 := { stats with totalOperations := stats.totalOperations + 1 }
  if queueFull q qMaxsize then
    (false, q, { stats1 with droppedOperations := stats1.droppedOperations + 1 })
  else (true, q ++ [op], stats1)

/-! ## Index lemmas -/

theorem find?_map_of_pred {α : Type} (f : α → α) (p : α → Bool)
    (h : ∀ e, p (f e) = p e) :
    ∀ l : List α, (l.map f).find? p = (l.find? p).map f := by
  intro l
  induction l with
  | nil => simp
  | cons e rest ih =>
    simp only [List.map_cons, List.find?_cons, h e]
    cases hp : p e <;> simp [ih]

theorem find?_map_put_self (idx : IndexMap) (k : Bytes) (o l : Nat)
    (hany : idx.any (fun e => e.1 == k) = true) :
    (idx.map (fun e => if e.1 == k then (k, o, l) else e)).find?
        (fun e => e.1 == k) = some (k, o, l) := by
  have hpred : ∀ e : Bytes × Nat × Nat,
      ((if e.1 == k then (k, o, l) else e).1 == k) = (e.1 == k) := by
    intro e
    by_cases he : (e.1 == k) = true
    · have he' : e.1 = k := by simpa using he
      rw [if_pos he]
      show (k == k) = (e.1 == k)
      rw [he']
    · rw [if_neg he]
  rw [find?_map_of_pred _ _ hpred]
  obtain ⟨e0, he0mem, he0⟩ := List.any_eq_true.mp hany
  cases hf : idx.find? (fun e => e.1 == k) with
  | none =>
    rw [List.find?_eq_none] at hf
    exact absurd he0 (hf e0 he0mem)
  | some e1 =>
    have h1 : e1.1 = k := by simpa using List.find?_some hf
    simp [h1]

theorem indexGet_put (idx : IndexMap) (k : Bytes) (o l : Nat) (k' : Bytes) :
    indexGet (indexPut idx k o l) k' =
      if k' = k then some (o, l) else indexGet idx k' := by
  unfold indexPut
  by_cases hany : idx.any (fun e => e.1 == k) = true
  · rw [if_pos hany]
    by_cases hk : k' = k
    · subst hk
      rw [indexGet, find?_map_put_self idx k' o l hany]
      simp
    · have hpred : ∀ e : Bytes × Nat × Nat,
          ((if e.1 == k then (k, o, l) else e).1 == k') = (e.1 == k') := by
        intro e
        by_cases he : (e.1 == k) = true
        · have he' : e.1 = k := by simpa using he
          rw [if_pos he]
          show (k == k') = (e.1 == k')
          rw [he']
        · rw [if_neg he]
      rw [if_neg hk, indexGet, find?_map_of_pred _ _ hpred, indexGet]
      cases hf : idx.find? (fun e => e.1 == k') with
      | none => rfl
      | some e =>
        have he : e.1 = k' := by simpa using List.find?_some hf
        have hek : e.1 ≠ k := by rw [he]; exact hk
        simp [hek]
  · rw [if_neg hany, indexGet, List.find?_append]
    by_cases hk : k' = k
    · subst hk
      have hnone : idx.find? (fun e => e.1 == k') = none := by
        rw [List.find?_eq_none]
        intro e he hc
        exact hany (List.any_eq_true.mpr ⟨e, he, hc⟩)
      rw [hnone, if_pos rfl]
      simp [List.find?]
    · have hkk : (k == k') = false := by
        simp only [beq_eq_false_iff_ne, ne_eq]
        exact Ne.symm hk
      have hff : List.find? (fun e => e.1 == k') [(k, o, l)] = none := by
        simp [List.find?_cons, hkk]
      rw [hff, if_neg hk, indexGet]
      simp

theorem indexGet_delete_self (idx : IndexMap) (k : Bytes) :
    indexGet (indexDelete idx k) k = none := by
  simp only [indexGet, indexDelete, Option.map_eq_none']
  rw [List.find?_eq_none]
  intro e he
  have := (List.mem_filter.mp he).2
  simp only [Bool.not_eq_true'] at this
  simp [this]

theorem indexGet_delete (idx : IndexMap) (k k' : Bytes) :
    indexGet (indexDelete idx k) k' =
      if k' = k then none else indexGet idx k' := by
  by_cases hk : k' = k
  · subst hk; simp [indexGet_delete_self]
  · rw [if_neg hk]
    unfold indexGet indexDelete
    rw [List.find?_filter]
    have hpt : (fun (a : Bytes × Nat × Nat) =>
        decide ((!(a.1 == k)) = true ∧ (a.1 == k') = true)) =
        (fun (a : Bytes × Nat × Nat) => a.1 == k') := by
      funext a
      by_cases ha : a.1 = k'
      · have h1 : (a.1 == k) = false := by
          rw [ha]
          simp only [beq_eq_false_iff_ne, ne_eq]
          exact hk
        simp [ha, h1]
        exact hk
      · simp [ha]
    rw [hpt]

/-! ## C3: delete returns true exactly when the key is present -/

/-- C3: `delete(k)` returns `true` if and only if `k` is present at the
time of the call; after any delete the key reads as absent, and a second
`delete(k)` returns `false`. -/
theorem delete_iff_present (st : StoreState) (k : Bytes) :
    ((storeDelete st k).1 = true ↔ (indexGet st.index k).isSome = true) ∧
    storeRead (storeDelete st k).2 k = none ∧
    (storeDelete (storeDelete st k).2 k).1 = false := by
  cases h : indexGet st.index k with
  | none => simp [storeDelete, h, storeRead, readDI]
  | some p => simp [storeDelete, h, storeRead, readDI, indexGet_delete_self]

/-! ## C4: WAL replay on a partial tail entry -/

/-- C4 (code bug): on a WAL file holding a length prefix that declares
ten payload bytes followed by only three bytes, `WAL.replay` does not
return the entries before the partial tail; the loop reads the short
payload and `pickle.loads` raises.  The specification requires the
partial tail to be treated as not durable and skipped silently. -/
theorem wal_replay_raises_on_partial_tail :
    walReplay [0, 0, 0, 10, 1, 2, 3] =
      Except.error "pickle: ran out of input" := by
  simp [walReplay, fromBE32]

/-! ## C5: a reader arriving after a waiting writer -/

/-- C5 (code bug): reader 1 holds the shared lock, writer 2 blocks
waiting for the exclusive lock, then reader 3 calls `acquire_read`.
Because `acquire_read` waits only while a writer is active, reader 3 is
admitted immediately: afterwards both readers hold the lock while writer
2 still waits, contradicting the required writer-fairness policy. -/
theorem reader_admitted_past_waiting_writer :
    rwRun [RWEvent.acquireRead 1, RWEvent.acquireWrite 2, RWEvent.acquireRead 3] =
      { readers := 2, writer := false, waitingReaders := [],
        waitingWriters := [2], readHolders := [1, 3], writeHolder := none } := by
  rfl

/-! ## C6: recovery replay applied twice -/

/-- C6 (counterexample): replaying the single-entry WAL
`[put "k" "v"]` twice does not yield the same final index as replaying
it once: the second replay re-appends the record and moves the key to
the fresher offset `(10, 10)` instead of `(0, 10)`. -/
theorem recover_twice_index_differs :
    indexGet (applyRecover (applyRecover initState [WalEntry.put [107] [118]])
        [WalEntry.put [107] [118]]).index [107] ≠
      indexGet (applyRecover initState [WalEntry.put [107] [118]]).index [107] := by
  decide

/-! ## C7: unescape after escape -/

/-- C7 (counterexample): the byte string consisting of one NUL byte is
not recovered by the escape round trip: `escape` leaves it unchanged and
`unescape` turns the NUL placeholder into a backslash. -/
theorem unescape_escape_nul_differs : unescape (escape [0]) ≠ [0] := by
  simp [escape, unescape, replaceL]

/-! ## C8: batch_put length mismatch -/

/-- C8: a `batch_put` whose key and value lists differ in length raises
the invalid-argument error before any WAL write: the returned state is
the argument state, so WAL, data file and index are all unchanged. -/
theorem batch_put_length_mismatch_rejected (st : StoreState)
    (keys values : List Bytes) (h : keys.length ≠ values.length) :
    batchPut st keys values =
      (Except.error "Keys and values must have the same length", st) := by
  simp [batchPut, h]

/-- Witness for C8 at a concrete mismatched call. -/
theorem batch_put_length_mismatch_rejected_witness :
    ([[107]] : List Bytes).length ≠ ([] : List Bytes).length ∧
    batchPut initState [[107]] [] =
      (Except.error "Keys and values must have the same length", initState) :=
  ⟨by decide, batch_put_length_mismatch_rejected initState [[107]] [] (by decide)⟩

/-! ## C9: replication retry on total failure -/

/-- C9 (counterexample): an async operation with retry count 0 (below
`max_retries = 3`) that is processed while no follower is healthy gets
zero successes, yet it is not re-enqueued: the queue stays empty and the
operation is only counted as a failed replication. -/
theorem replicate_no_healthy_not_retried :
    replicateToAll [] (fun _ _ => false) 3 { op := "put" } [] 10
        ⟨0, 0, 0, 0⟩ = (false, [], ⟨0, 0, 1, 0⟩) := by
  rfl

/-- C9 (amended): when no follower is healthy the operation is only
counted failed and never re-enqueued; when at least one follower is
healthy and every dispatch fails, the operation is re-enqueued with its
retry count incremented provided the count is below `max_retries` and
the queue is not full, and in every case the dropped counter is left
unchanged (the give-up path on a full queue is silent). -/
theorem replicate_retry_behavior (healthy : List Replica)
    (dispatchOk : RepOp → Replica → Bool) (maxRetries : Nat) (op : RepOp)
    (q : List RepOp) (qMaxsize : Nat) (stats : RepStats) :
    (healthy = [] →
      replicateToAll healthy dispatchOk maxRetries op q qMaxsize stats =
        (false, q,
         { stats with failedReplications := stats.failedReplications + 1 })) ∧
    (healthy ≠ [] → (∀ r ∈ healthy, dispatchOk op r = false) →
      replicateToAll healthy dispatchOk maxRetries op q qMaxsize stats =
        (false,
         if op.retryCount < maxRetries ∧ queueFull q qMaxsize = false then
           q ++ [{ op with retryCount := op.retryCount + 1 }]
         else q,
         { stats with failedReplications := stats.failedReplications + 1 })) := by
  constructor
  · intro h
    subst h
    simp [replicateToAll]
  · intro hne hfail
    have hempty : healthy.isEmpty = false := by
      cases healthy with
      | nil => exact absurd rfl hne
      | cons a as => rfl
    have hfilter : healthy.filter (fun r => dispatchOk op r) = [] := by
      rw [List.filter_eq_nil_iff]
      intro r hr
      simp [hfail r hr]
    rw [replicateToAll]
    simp only [hempty, Bool.false_eq_true, if_false, hfilter, List.length_nil,
      gt_iff_lt, Nat.lt_irrefl, if_false]
    by_cases hretry : op.retryCount < maxRetries
    · by_cases hfull : queueFull q qMaxsize = true
      · simp [hretry, hfull]
      · simp only [Bool.not_eq_true] at hfull
        simp [hretry, hfull]
    · simp [hretry]

/-- Witness for C9 amended: one healthy follower, every dispatch fails,
retry count 0 below the limit 3, queue empty: the operation comes back
with retry count 1 and the dropped counter stays 0. -/
theorem replicate_retry_behavior_witness :
    ([((1 : Nat), (1 : Nat))] : List Replica) ≠ [] ∧
    replicateToAll [(1, 1)] (fun _ _ => false) 3 { op := "put" } [] 10
        ⟨0, 0, 0, 0⟩ = (false, [{ op := "put", retryCount := 1 }], ⟨0, 0, 1, 0⟩) := by
  refine ⟨by decide, ?_⟩
  have h := (replicate_retry_behavior [(1, 1)] (fun _ _ => false) 3
    { op := "put" } [] 10 ⟨0, 0, 0, 0⟩).2 (by decide) (by intro r _; rfl)
  simpa using h

/-! ## Record round trip through the data file -/

theorem fromBE32_toBE32 (n : Nat) (h : n < 2 ^ 32) :
    fromBE32 (toBE32 n) = some n := by
  simp only [toBE32, fromBE32, Option.some.injEq]
  have h32 : n < 4294967296 := by
    simpa using h
  omega

/-- The bytes at `offset` in `data` are exactly the record for
`(key, value)` (with room for the source's 32-bit length prefixes),
followed by the rest of the file. -/
def wellFormedAt (data : Bytes) (offset : Nat) (key value : Bytes) : Prop :=
  key.length < 2 ^ 32 ∧ value.length < 2 ^ 32 ∧
  ∃ suffix, data.drop offset = encodeRecord key value ++ suffix

theorem readRecord_of_wellFormedAt {data : Bytes} {o : Nat} {k v : Bytes}
    (h : wellFormedAt data o k v) : readRecord data o = some (k, v) := by
  obtain ⟨hk, hv, s, hs⟩ := h
  have hne : ¬ data.length = 0 := by
    intro h0
    have hnil : data = [] := List.eq_nil_of_length_eq_zero h0
    rw [hnil] at hs
    simp [encodeRecord, toBE32] at hs
  have hd4 : data.drop (o + 4) = k ++ toBE32 v.length ++ v ++ s := by
    have := List.drop_drop 4 o data
    rw [← this, hs, encodeRecord]
    rw [List.append_assoc, List.append_assoc, List.append_assoc]
    rw [List.drop_left' (by simp [toBE32])]
    simp [List.append_assoc]
  have ht1 : (data.drop o).take 4 = toBE32 k.length := by
    rw [hs, encodeRecord]
    rw [List.append_assoc, List.append_assoc, List.append_assoc]
    exact List.take_left' (by simp [toBE32])
  have ht2 : (data.drop (o + 4)).take k.length = k := by
    rw [hd4, List.append_assoc, List.append_assoc]
    exact List.take_left' rfl
  have hd5 : data.drop (o + 4 + k.length) = toBE32 v.length ++ v ++ s := by
    have := List.drop_drop k.length (o + 4) data
    rw [← this, hd4, List.append_assoc, List.append_assoc]
    rw [List.drop_left' rfl]
    simp [List.append_assoc]
  have ht3 : (data.drop (o + 4 + k.length)).take 4 = toBE32 v.length := by
    rw [hd5, List.append_assoc]
    exact List.take_left' (by simp [toBE32])
  have hd6 : data.drop (o + 4 + k.length + 4) = v ++ s := by
    have := List.drop_drop 4 (o + 4 + k.length) data
    rw [← this, hd5, List.append_assoc]
    rw [List.drop_left' (by simp [toBE32])]
  have ht4 : (data.drop (o + 4 + k.length + 4)).take v.length = v := by
    rw [hd6]
    exact List.take_left' rfl
  rw [readRecord, if_neg hne, ht1, fromBE32_toBE32 _ hk]
  simp only [ht2, ht3, fromBE32_toBE32 _ hv, ht4]

theorem wellFormedAt_append {data : Bytes} {o : Nat} {k v : Bytes}
    (extra : Bytes) (h : wellFormedAt data o k v) :
    wellFormedAt (data ++ extra) o k v := by
  obtain ⟨hk, hv, s, hs⟩ := h
  refine ⟨hk, hv, s ++ extra, ?_⟩
  have ho : o ≤ data.length := by
    by_contra hlt
    push_neg at hlt
    have hnil : data.drop o = [] := List.drop_eq_nil_of_le (le_of_lt hlt)
    rw [hnil] at hs
    simp [encodeRecord, toBE32] at hs
  rw [List.drop_append_of_le_length ho, hs, List.append_assoc]

theorem wellFormedAt_self (data k v : Bytes) (hk : k.length < 2 ^ 32)
    (hv : v.length < 2 ^ 32) :
    wellFormedAt (data ++ encodeRecord k v) data.length k v :=
  ⟨hk, hv, [], by rw [List.drop_left]; simp⟩

/-! ## Read-after-write preservation -/

/-- The store currently maps `k` to a live, well-formed record holding
`v`. -/
def ReadsVal (st : StoreState) (k v : Bytes) : Prop :=
  ∃ o l, indexGet st.index k = some (o, l) ∧ wellFormedAt st.data o k v

theorem storeRead_of_ReadsVal {st : StoreState} {k v : Bytes}
    (h : ReadsVal st k v) : storeRead st k = some v := by
  obtain ⟨o, l, hg, hwf⟩ := h
  simp [storeRead, readDI, hg, readRecord_of_wellFormedAt hwf]

theorem ReadsVal_applyPut_self (st : StoreState) (k v : Bytes)
    (hk : k.length < 2 ^ 32) (hv : v.length < 2 ^ 32) :
    ReadsVal (applyPut st k v) k v := by
  refine ⟨st.data.length, (encodeRecord k v).length, ?_, ?_⟩
  · simp [applyPut, dataAppend, indexGet_put]
  · show wellFormedAt (applyPut st k v).data st.data.length k v
    simp only [applyPut, dataAppend]
    exact wellFormedAt_self st.data k v hk hv

theorem ReadsVal_applyPut_other (st : StoreState) (k v k' v' : Bytes)
    (hne : k ≠ k') (h : ReadsVal st k v) : ReadsVal (applyPut st k' v') k v := by
  obtain ⟨o, l, hg, hwf⟩ := h
  refine ⟨o, l, ?_, ?_⟩
  · simp [applyPut, dataAppend, indexGet_put, hne, hg]
  · show wellFormedAt (applyPut st k' v').data o k v
    simp only [applyPut, dataAppend]
    exact wellFormedAt_append _ hwf

theorem ReadsVal_delete_other (st : StoreState) (k v k' : Bytes)
    (hne : k ≠ k') (h : ReadsVal st k v) :
    ReadsVal (storeDelete st k').2 k v := by
  obtain ⟨o, l, hg, hwf⟩ := h
  cases hd : indexGet st.index k' with
  | none =>
    simp only [storeDelete, hd]
    exact ⟨o, l, hg, hwf⟩
  | some p =>
    simp only [storeDelete, hd]
    exact ⟨o, l, by rw [indexGet_delete, if_neg hne]; exact hg, hwf⟩

theorem ReadsVal_applyOp (st : StoreState) (op : Op) (k v : Bytes)
    (hput : ∀ v', op ≠ Op.put k v') (hdel : op ≠ Op.del k)
    (h : ReadsVal st k v) : ReadsVal (applyOp st op) k v := by
  cases op with
  | put k' v' =>
    have hne : k ≠ k' := by
      intro he
      subst he
      exact hput v' rfl
    show ReadsVal (applyPut { st with wal := st.wal ++ [WalEntry.put k' v'] } k' v') k v
    exact ReadsVal_applyPut_other _ k v k' v' hne h
  | del k' =>
    have hne : k ≠ k' := by
      intro he
      subst he
      exact hdel rfl
    exact ReadsVal_delete_other st k v k' hne h

theorem ReadsVal_applyOps (st : StoreState) (ops : List Op) (k v : Bytes)
    (hput : ∀ v', Op.put k v' ∉ ops) (hdel : Op.del k ∉ ops)
    (h : ReadsVal st k v) : ReadsVal (applyOps st ops) k v := by
  induction ops generalizing st with
  | nil => exact h
  | cons op rest ih =>
    show ReadsVal (applyOps (applyOp st op) rest) k v
    refine ih (applyOp st op) (fun v' hm => hput v' (List.mem_cons_of_mem _ hm))
      (fun hm => hdel (List.mem_cons_of_mem _ hm)) ?_
    refine ReadsVal_applyOp st op k v ?_ ?_ h
    · intro v' he
      subst he
      exact hput v' (List.mem_cons_self _ _)
    · intro he
      subst he
      exact hdel (List.mem_cons_self _ _)

/-! ## C1: read returns the last written value -/

/-- C1: after any mutation sequence containing `put K V` followed only
by operations that neither write nor delete `K`, `read K` returns `V`
(the length bounds reflect the 32-bit record framing of the source). -/
theorem read_returns_last_put (pre post : List Op) (K V : Bytes)
    (hK : K.length < 2 ^ 32) (hV : V.length < 2 ^ 32)
    (hput : ∀ v, Op.put K v ∉ post) (hdel : Op.del K ∉ post) :
    storeRead (applyOps initState (pre ++ Op.put K V :: post)) K = some V := by
  have h1 : applyOps initState (pre ++ Op.put K V :: post) =
      applyOps (applyOp (applyOps initState pre) (Op.put K V)) post := by
    rw [applyOps, List.foldl_append]
    rfl
  rw [h1]
  apply storeRead_of_ReadsVal
  refine ReadsVal_applyOps _ post K V hput hdel ?_
  show ReadsVal (applyPut { applyOps initState pre with
    wal := (applyOps initState pre).wal ++ [WalEntry.put K V] } K V) K V
  exact ReadsVal_applyPut_self _ K V hK hV

/-- Witness for C1: the value of key `k` after
`put a x; put k v1; put k v2; put b y; delete a` is `v2`. -/
theorem read_returns_last_put_witness :
    ([107] : Bytes).length < 2 ^ 32 ∧ ([118, 50] : Bytes).length < 2 ^ 32 ∧
    storeRead (applyOps initState
      ([Op.put [97] [120], Op.put [107] [118, 49]] ++ Op.put [107] [118, 50] ::
        [Op.put [98] [121], Op.del [97]])) [107] = some [118, 50] := by
  refine ⟨by decide, by decide, ?_⟩
  refine read_returns_last_put [Op.put [97] [120], Op.put [107] [118, 49]]
    [Op.put [98] [121], Op.del [97]] [107] [118, 50] (by decide) (by decide) ?_ ?_
  · intro v hv
    simp at hv
  · intro hv
    simp at hv

/-! ## The store invariant: index and data file agree -/

/-- Invariant I1 of the specification: index keys are unique and every
index entry points at a well-formed record for its key. -/
def StoreInv (st : StoreState) : Prop :=
  (st.index.map (fun e => e.1)).Nodup ∧
  ∀ e ∈ st.index, ∃ v, wellFormedAt st.data e.2.1 e.1 v

theorem StoreInv_initState : StoreInv initState := by
  constructor
  · simp [initState]
  · intro e he
    simp [initState] at he

theorem StoreInv_applyPut (st : StoreState) (k v : Bytes)
    (hk : k.length < 2 ^ 32) (hv : v.length < 2 ^ 32) (h : StoreInv st) :
    StoreInv (applyPut st k v) := by
  obtain ⟨hnd, hwf⟩ := h
  have hdata : (applyPut st k v).data = st.data ++ encodeRecord k v := rfl
  have hidx : (applyPut st k v).index =
      indexPut st.index k st.data.length (encodeRecord k v).length := rfl
  constructor
  · rw [hidx]
    unfold indexPut
    by_cases hany : st.index.any (fun e => e.1 == k) = true
    · rw [if_pos hany]
      have hkeys : (st.index.map (fun e =>
          if e.1 == k then (k, st.data.length, (encodeRecord k v).length) else e)).map
            (fun e => e.1) = st.index.map (fun e => e.1) := by
        rw [List.map_map]
        apply List.map_congr_left
        intro e _
        by_cases he : (e.1 == k) = true
        · have he' : e.1 = k := by simpa using he
          simp [he, he']
        · have he' : ¬ e.1 = k := by simpa using he
          simp [he, he']
      rw [hkeys]
      exact hnd
    · rw [if_neg hany]
      rw [List.map_append]
      apply List.Nodup.append hnd (by simp)
      intro a ha hb
      simp only [List.map_cons, List.map_nil, List.mem_singleton] at hb
      subst hb
      obtain ⟨e, he, hek⟩ := List.mem_map.mp ha
      exact hany (List.any_eq_true.mpr ⟨e, he, by simp [hek]⟩)
  · intro e he
    rw [hidx] at he
    rw [hdata]
    unfold indexPut at he
    by_cases hany : st.index.any (fun e => e.1 == k) = true
    · rw [if_pos hany] at he
      obtain ⟨e0, he0, hfe⟩ := List.mem_map.mp he
      by_cases h0 : (e0.1 == k) = true
      · rw [if_pos h0] at hfe
        subst hfe
        exact ⟨v, wellFormedAt_self st.data k v hk hv⟩
      · rw [if_neg h0] at hfe
        subst hfe
        obtain ⟨w, hw⟩ := hwf e0 he0
        exact ⟨w, wellFormedAt_append _ hw⟩
    · rw [if_neg hany] at he
      rcases List.mem_append.mp he with hold | hnew
      · obtain ⟨w, hw⟩ := hwf e hold
        exact ⟨w, wellFormedAt_append _ hw⟩
      · simp only [List.mem_singleton] at hnew
        subst hnew
        exact ⟨v, wellFormedAt_self st.data k v hk hv⟩

theorem StoreInv_indexDelete (st : StoreState) (k : Bytes) (h : StoreInv st) :
    StoreInv { st with index := indexDelete st.index k } := by
  obtain ⟨hnd, hwf⟩ := h
  constructor
  · exact List.Nodup.sublist (List.Sublist.map _ (List.filter_sublist _)) hnd
  · intro e he
    exact hwf e (List.mem_filter.mp he).1

theorem StoreInv_storeDelete (st : StoreState) (k : Bytes) (h : StoreInv st) :
    StoreInv (storeDelete st k).2 := by
  cases hd : indexGet st.index k with
  | none => simpa [storeDelete, hd] using h
  | some p =>
    simp only [storeDelete, hd]
    exact StoreInv_indexDelete _ k h

/-- Length bounds a `put` needs for the 32-bit record framing. -/
def opWF : Op → Prop
  | .put k v => k.length < 2 ^ 32 ∧ v.length < 2 ^ 32
  | .del _ => True

instance : DecidablePred opWF := fun op =>
  match op with
  | Op.put k v =>
    inferInstanceAs (Decidable (k.length < 2 ^ 32 ∧ v.length < 2 ^ 32))
  | Op.del _ => inferInstanceAs (Decidable True)

theorem StoreInv_applyOp (st : StoreState) (op : Op) (hop : opWF op)
    (h : StoreInv st) : StoreInv (applyOp st op) := by
  cases op with
  | put k v =>
    show StoreInv (applyPut { st with wal := st.wal ++ [WalEntry.put k v] } k v)
    exact StoreInv_applyPut _ k v hop.1 hop.2 h
  | del k => exact StoreInv_storeDelete st k h

theorem StoreInv_applyOps (st : StoreState) (ops : List Op)
    (hops : ∀ op ∈ ops, opWF op) (h : StoreInv st) :
    StoreInv (applyOps st ops) := by
  induction ops generalizing st with
  | nil => exact h
  | cons op rest ih =>
    show StoreInv (applyOps (applyOp st op) rest)
    exact ih (applyOp st op) (fun o ho => hops o (List.mem_cons_of_mem _ ho))
      (StoreInv_applyOp st op (hops op (List.mem_cons_self _ _)) h)

/-! ## C2: range reads -/

theorem indexGet_of_mem_nodup (idx : IndexMap)
    (hnd : (idx.map (fun e => e.1)).Nodup) {k : Bytes} {p : Nat × Nat}
    (hm : (k, p) ∈ idx) : indexGet idx k = some p := by
  induction idx with
  | nil => simp at hm
  | cons e rest ih =>
    rcases List.mem_cons.mp hm with heq | htail
    · subst heq
      simp [indexGet, List.find?_cons]
    · have hnd' := hnd
      rw [List.map_cons, List.nodup_cons] at hnd'
      have hknotk : e.1 ≠ k := by
        intro hek
        exact hnd'.1 (hek ▸ List.mem_map.mpr ⟨(k, p), htail, rfl⟩)
      have hpe : (e.1 == k) = false := by
        simp only [beq_eq_false_iff_ne, ne_eq]
        exact hknotk
      rw [indexGet, List.find?_cons, hpe]
      exact ih hnd'.2 htail

theorem mem_of_indexGet (idx : IndexMap) (k : Bytes) (p : Nat × Nat)
    (h : indexGet idx k = some p) : (k, p) ∈ idx := by
  unfold indexGet at h
  cases hf : idx.find? (fun e => e.1 == k) with
  | none => rw [hf] at h; simp at h
  | some e =>
    rw [hf] at h
    have hek : e.1 = k := by simpa using List.find?_some hf
    have hmem := List.mem_of_find?_eq_some hf
    have hp : e.2 = p := by simpa using h
    have : e = (k, p) := by
      cases e
      simp_all
    rw [← this]
    exact hmem

theorem rangeReadLoop_some (data : Bytes) (lst : IndexMap)
    (h : ∀ e ∈ lst, ∃ v, readRecord data e.2.1 = some (e.1, v)) :
    ∃ pairs, rangeReadLoop data lst = some pairs ∧
      ∀ k v, ((k, v) ∈ pairs ↔
        ∃ o l, (k, o, l) ∈ lst ∧ readRecord data o = some (k, v)) := by
  induction lst with
  | nil => exact ⟨[], rfl, by simp⟩
  | cons e rest ih =>
    obtain ⟨ev, hev⟩ := h e (List.mem_cons_self _ _)
    obtain ⟨pairs, hp, hmem⟩ := ih (fun e' he' => h e' (List.mem_cons_of_mem _ he'))
    refine ⟨(e.1, ev) :: pairs, ?_, ?_⟩
    · rw [rangeReadLoop, hev, hp]
      simp
    · intro k v
      constructor
      · intro hkv
        rcases List.mem_cons.mp hkv with heq | htail
        · have hk : k = e.1 := congrArg Prod.fst heq
          have hv : v = ev := congrArg Prod.snd heq
          refine ⟨e.2.1, e.2.2, ?_, ?_⟩
          · have hee : (k, e.2.1, e.2.2) = e := by rw [hk]
            rw [hee]
            exact List.mem_cons_self _ _
          · rw [hk, hv]
            exact hev
        · obtain ⟨o, l, hmr, hrd⟩ := (hmem k v).mp htail
          exact ⟨o, l, List.mem_cons_of_mem _ hmr, hrd⟩
      · rintro ⟨o, l, hmr, hrd⟩
        rcases List.mem_cons.mp hmr with heq | htail
        · have h1 : e.2.1 = o := by rw [← heq]
          have h2 : e.1 = k := by rw [← heq]
          rw [← h1] at hrd
          rw [hev] at hrd
          have hpair : e.1 = k ∧ ev = v := by simpa using hrd
          rw [← hpair.1, ← hpair.2]
          exact List.mem_cons_self _ _
        · exact List.mem_cons_of_mem _ ((hmem k v).mpr ⟨o, l, htail, hrd⟩)

theorem range_spec (st : StoreState) (hInv : StoreInv st) (a b k v : Bytes) :
    ((k, v) ∈ storeReadKeyRange st a b) ↔
      (bytesLE a k = true ∧ bytesLE k b = true ∧ storeRead st k = some v) := by
  obtain ⟨hnd, hwf⟩ := hInv
  have hall : ∀ e ∈ indexGetRange st.index a b,
      ∃ w, readRecord st.data e.2.1 = some (e.1, w) := by
    intro e he
    have hm : e ∈ st.index := (List.mem_filter.mp he).1
    obtain ⟨w, hw⟩ := hwf e hm
    exact ⟨w, readRecord_of_wellFormedAt hw⟩
  obtain ⟨pairs, hp, hmem⟩ := rangeReadLoop_some st.data _ hall
  rw [storeReadKeyRange, hp, hmem k v]
  constructor
  · rintro ⟨o, l, hmr, hrd⟩
    have hfil := List.mem_filter.mp hmr
    have hrange : bytesLE a k = true ∧ bytesLE k b = true := by
      simpa using hfil.2
    refine ⟨hrange.1, hrange.2, ?_⟩
    have hg : indexGet st.index k = some (o, l) :=
      indexGet_of_mem_nodup _ hnd hfil.1
    simp [storeRead, readDI, hg, hrd]
  · rintro ⟨ha, hb, hread⟩
    cases hg : indexGet st.index k with
    | none => simp [storeRead, readDI, hg] at hread
    | some p =>
      obtain ⟨o, l⟩ := p
      cases hr : readRecord st.data o with
      | none => simp [storeRead, readDI, hg, hr] at hread
      | some q =>
        obtain ⟨sk, w⟩ := q
        by_cases hsk : (sk == k) = true
        · have hskk : sk = k := by simpa using hsk
          have hwv : w = v := by
            have := hread
            simp [storeRead, readDI, hg, hr, hsk] at this
            exact this
          refine ⟨o, l, ?_, ?_⟩
          · apply List.mem_filter.mpr
            exact ⟨mem_of_indexGet _ _ _ hg, by simp [ha, hb]⟩
          · rw [hr, hskk, hwv]
        · simp [storeRead, readDI, hg, hr, hsk] at hread

/-- C2: over any reachable store state, `read_key_range a b` holds a
pair `(k, v)` exactly when `k` is between `a` and `b` inclusive in byte
order and `read k` currently returns `v`; deleted or overwritten keys
outside that description never appear. -/
theorem range_returns_exactly_live_keys (ops : List Op)
    (hops : ∀ op ∈ ops, opWF op) (a b k v : Bytes) :
    ((k, v) ∈ storeReadKeyRange (applyOps initState ops) a b) ↔
      (bytesLE a k = true ∧ bytesLE k b = true ∧
        storeRead (applyOps initState ops) k = some v) :=
  range_spec _ (StoreInv_applyOps initState ops hops StoreInv_initState) a b k v

/-- Witness for C2 on the store holding keys `k1, k3, m` with range
bounds `[k1, k3]`. -/
theorem range_returns_exactly_live_keys_witness :
    (∀ op ∈ ([Op.put [107, 49] [118, 49], Op.put [107, 51] [118, 51],
        Op.put [109] [120]] : List Op), opWF op) ∧
    (((([107, 49] : Bytes), ([118, 49] : Bytes)) ∈
        storeReadKeyRange (applyOps initState
          [Op.put [107, 49] [118, 49], Op.put [107, 51] [118, 51],
           Op.put [109] [120]]) [107, 49] [107, 51]) ↔
      (bytesLE [107, 49] [107, 49] = true ∧ bytesLE [107, 49] [107, 51] = true ∧
        storeRead (applyOps initState
          [Op.put [107, 49] [118, 49], Op.put [107, 51] [118, 51],
           Op.put [109] [120]]) [107, 49] = some [118, 49])) :=
  ⟨by decide, range_returns_exactly_live_keys _ (by decide) _ _ _ _⟩

/-! ## C6 (amended): recovery replay reads -/

/-- Length bounds a WAL `put` entry needs for the record framing. -/
def entryWF : WalEntry → Prop
  | .put k v => k.length < 2 ^ 32 ∧ v.length < 2 ^ 32
  | .del _ => True

instance : DecidablePred entryWF := fun e =>
  match e with
  | WalEntry.put k v =>
    inferInstanceAs (Decidable (k.length < 2 ^ 32 ∧ v.length < 2 ^ 32))
  | WalEntry.del _ => inferInstanceAs (Decidable True)

theorem storeRead_applyPut_self (st : StoreState) (k v : Bytes)
    (hk : k.length < 2 ^ 32) (hv : v.length < 2 ^ 32) :
    storeRead (applyPut st k v) k = some v :=
  storeRead_of_ReadsVal (ReadsVal_applyPut_self st k v hk hv)

theorem storeRead_applyPut_other (st : StoreState) (k k' v' : Bytes)
    (hne : k ≠ k') (hInv : StoreInv st) :
    storeRead (applyPut st k' v') k = storeRead st k := by
  cases hg : indexGet st.index k with
  | none =>
    have hg' : indexGet (applyPut st k' v').index k = none := by
      show indexGet (indexPut st.index k' st.data.length
        (encodeRecord k' v').length) k = none
      rw [indexGet_put, if_neg hne, hg]
    simp [storeRead, readDI, hg, hg']
  | some p =>
    obtain ⟨o, l⟩ := p
    obtain ⟨w, hw⟩ := hInv.2 (k, o, l) (mem_of_indexGet _ _ _ hg)
    have h1 : storeRead st k = some w := storeRead_of_ReadsVal ⟨o, l, hg, hw⟩
    have h2 : storeRead (applyPut st k' v') k = some w := by
      apply storeRead_of_ReadsVal
      refine ⟨o, l, ?_, ?_⟩
      · show indexGet (indexPut st.index k' st.data.length
          (encodeRecord k' v').length) k = some (o, l)
        rw [indexGet_put, if_neg hne]
        exact hg
      · show wellFormedAt (st.data ++ encodeRecord k' v') o k w
        exact wellFormedAt_append _ hw
    rw [h1, h2]

theorem storeRead_indexDelete (st : StoreState) (k k' : Bytes) :
    storeRead { st with index := indexDelete st.index k' } k =
      if k = k' then none else storeRead st k := by
  by_cases hk : k = k'
  · subst hk
    simp [storeRead, readDI, indexGet_delete_self]
  · simp only [storeRead, readDI, indexGet_delete, hk, if_false]

theorem StoreInv_recoverStep (st : StoreState) (e : WalEntry)
    (hwf : entryWF e) (h : StoreInv st) : StoreInv (recoverStep st e) := by
  cases e with
  | put k v => exact StoreInv_applyPut st k v hwf.1 hwf.2 h
  | del k => exact StoreInv_indexDelete st k h

theorem StoreInv_applyRecover (st : StoreState) (es : List WalEntry)
    (hwf : ∀ e ∈ es, entryWF e) (h : StoreInv st) :
    StoreInv (applyRecover st es) := by
  induction es generalizing st with
  | nil => exact h
  | cons e rest ih =>
    show StoreInv (applyRecover (recoverStep st e) rest)
    exact ih (recoverStep st e) (fun e' he' => hwf e' (List.mem_cons_of_mem _ he'))
      (StoreInv_recoverStep st e (hwf e (List.mem_cons_self _ _)) h)

/-- The effect one WAL entry has on key `k`: `none` when it does not
touch `k`, else the read result it forces. -/
def entryAction : WalEntry → Bytes → Option (Option Bytes)
  | .put k' v, k => if k' = k then some (some v) else none
  | .del k', k => if k' = k then some none else none

/-- The read result the last `k`-touching entry of a WAL forces, if
any entry touches `k` at all. -/
def lastAction : List WalEntry → Bytes → Option (Option Bytes)
  | [], _ => none
  | e :: es, k =>
    match lastAction es k with
    | some r => some r
    | none => entryAction e k

theorem storeRead_applyRecover (st : StoreState) (es : List WalEntry)
    (k : Bytes) (hInv : StoreInv st) (hwf : ∀ e ∈ es, entryWF e) :
    storeRead (applyRecover st es) k =
      match lastAction es k with
      | none => storeRead st k
      | some r => r := by
  induction es generalizing st with
  | nil => rfl
  | cons e rest ih =>
    have h1 : applyRecover st (e :: rest) = applyRecover (recoverStep st e) rest := rfl
    have hwe := hwf e (List.mem_cons_self _ _)
    have hwrest := fun e' he' => hwf e' (List.mem_cons_of_mem e he')
    rw [h1, ih (recoverStep st e) (StoreInv_recoverStep st e hwe hInv) hwrest]
    rw [lastAction]
    cases hla : lastAction rest k with
    | some r => rfl
    | none =>
      cases e with
      | put k' v =>
        by_cases hk : k' = k
        · subst hk
          simp only [recoverStep, entryAction, if_pos rfl]
          exact storeRead_applyPut_self st k' v hwe.1 hwe.2
        · simp only [recoverStep, entryAction, if_neg hk]
          exact storeRead_applyPut_other st k k' v (fun he => hk he.symm) hInv
      | del k' =>
        by_cases hk : k' = k
        · subst hk
          have hL : storeRead (recoverStep st (WalEntry.del k')) k' = none := by
            show storeRead { st with index := indexDelete st.index k' } k' = none
            rw [storeRead_indexDelete, if_pos rfl]
          rw [hL]
          simp [entryAction]
        · have hL : storeRead (recoverStep st (WalEntry.del k')) k =
              storeRead st k := by
            show storeRead { st with index := indexDelete st.index k' } k = _
            rw [storeRead_indexDelete, if_neg (fun he => hk he.symm)]
          rw [hL]
          simp [entryAction, hk]

/-- C6 (amended): replaying the same WAL entry sequence a second time
leaves every key reading the same value as after the first replay; the
key set and the values agree, though index offsets move to the
re-appended records (which is what makes the index itself differ). -/
theorem recover_twice_reads_agree (es : List WalEntry)
    (hwf : ∀ e ∈ es, entryWF e) (k : Bytes) :
    storeRead (applyRecover (applyRecover initState es) es) k =
      storeRead (applyRecover initState es) k := by
  have hInv1 : StoreInv (applyRecover initState es) :=
    StoreInv_applyRecover initState es hwf StoreInv_initState
  rw [storeRead_applyRecover _ es k hInv1 hwf]
  cases hla : lastAction es k with
  | none => rfl
  | some r =>
    rw [storeRead_applyRecover initState es k StoreInv_initState hwf, hla]

/-- Witness for C6 (amended) on the single-entry WAL `[put k v]`. -/
theorem recover_twice_reads_agree_witness :
    (∀ e ∈ ([WalEntry.put [107] [118]] : List WalEntry), entryWF e) ∧
    storeRead (applyRecover (applyRecover initState [WalEntry.put [107] [118]])
        [WalEntry.put [107] [118]]) [107] =
      storeRead (applyRecover initState [WalEntry.put [107] [118]]) [107] :=
  ⟨by decide, recover_twice_reads_agree [WalEntry.put [107] [118]] (by decide) [107]⟩

/-! ## C7 (amended): the escape round trip on NUL-free data

Each `bytes.replace` stage of `escape` and `unescape` acts blockwise on
the image of the previous stages; the lemmas below push the five
`unescape` stages back through the four `escape` stages one at a time. -/

/-- Concatenation of a per-byte expansion over a byte string. -/
def concatBytes (f : Nat → Bytes) : Bytes → Bytes
  | [] => []
  | b :: bs => f b ++ concatBytes f bs

/-- Image of one byte after the backslash-doubling stage of `escape`. -/
def escStep1 (b : Nat) : Bytes := if b = 92 then [92, 92] else [b]

/-- Image after the backslash and newline stages. -/
def escStep2 (b : Nat) : Bytes :=
  if b = 92 then [92, 92] else if b = 10 then [92, 110] else [b]

/-- Image after the backslash, newline and carriage-return stages. -/
def escStep3 (b : Nat) : Bytes :=
  if b = 92 then [92, 92] else if b = 10 then [92, 110]
  else if b = 13 then [92, 114] else [b]

/-- Image of one byte under the full `escape`. -/
def escByte (b : Nat) : Bytes :=
  if b = 92 then [92, 92] else if b = 10 then [92, 110]
  else if b = 13 then [92, 114] else if b = 9 then [92, 116] else [b]

/-- Image after `unescape` has collapsed doubled backslashes into the
NUL placeholder. -/
def unStep1 (b : Nat) : Bytes :=
  if b = 92 then [0] else if b = 10 then [92, 110]
  else if b = 13 then [92, 114] else if b = 9 then [92, 116] else [b]

/-- Image after the placeholder and newline stages of `unescape`. -/
def unStep2 (b : Nat) : Bytes :=
  if b = 92 then [0] else if b = 10 then [10]
  else if b = 13 then [92, 114] else if b = 9 then [92, 116] else [b]

/-- Image after the placeholder, newline and carriage-return stages. -/
def unStep3 (b : Nat) : Bytes :=
  if b = 92 then [0] else if b = 10 then [10]
  else if b = 13 then [13] else if b = 9 then [92, 116] else [b]

/-- Image after all but the placeholder-restoring stage of `unescape`. -/
def unStep4 (b : Nat) : Bytes :=
  if b = 92 then [0] else if b = 10 then [10]
  else if b = 13 then [13] else if b = 9 then [9] else [b]

theorem replaceL_cons (c : Nat) (ps rep : Bytes) (a : Nat) (as : Bytes) :
    replaceL c ps rep (a :: as) =
      if (c :: ps).isPrefixOf (a :: as) then
        rep ++ replaceL c ps rep (as.drop ps.length)
      else a :: replaceL c ps rep as := by
  rw [replaceL]

theorem replaceL_step_match (c : Nat) (ps rep : Bytes) (a : Nat) (as : Bytes)
    (h : (c :: ps).isPrefixOf (a :: as) = true) :
    replaceL c ps rep (a :: as) = rep ++ replaceL c ps rep (as.drop ps.length) := by
  rw [replaceL_cons, if_pos h]

theorem replaceL_step_skip (c : Nat) (ps rep : Bytes) (a : Nat) (as : Bytes)
    (h : (c :: ps).isPrefixOf (a :: as) = false) :
    replaceL c ps rep (a :: as) = a :: replaceL c ps rep as := by
  rw [replaceL_cons, if_neg (by simp [h])]

theorem beq_ne_false {a b : Nat} (h : ¬ b = a) : (a == b) = false := by
  simp only [beq_eq_false_iff_ne, ne_eq]
  exact fun hh => h hh.symm

theorem esc_stage1 (d : Bytes) :
    replaceL 92 [] [92, 92] d = concatBytes escStep1 d := by
  induction d with
  | nil => simp [replaceL, concatBytes]
  | cons b bs ih =>
    simp only [concatBytes]
    by_cases h92 : b = 92
    · subst h92
      simp [escStep1, replaceL_cons, List.isPrefixOf, ih]
    · simp [escStep1, h92, replaceL_cons, List.isPrefixOf, beq_ne_false h92, ih]

theorem esc_stage2 (d : Bytes) :
    replaceL 10 [] [92, 110] (concatBytes escStep1 d) = concatBytes escStep2 d := by
  induction d with
  | nil => simp [replaceL, concatBytes]
  | cons b bs ih =>
    simp only [concatBytes]
    by_cases h92 : b = 92
    · subst h92
      simp [escStep1, escStep2, replaceL_cons, List.isPrefixOf, ih]
    · by_cases h10 : b = 10
      · subst h10
        simp [escStep1, escStep2, replaceL_cons, List.isPrefixOf, ih]
      · simp [escStep1, escStep2, h92, h10, replaceL_cons, List.isPrefixOf,
          beq_ne_false h10, ih]

theorem esc_stage3 (d : Bytes) :
    replaceL 13 [] [92, 114] (concatBytes escStep2 d) = concatBytes escStep3 d := by
  induction d with
  | nil => simp [replaceL, concatBytes]
  | cons b bs ih =>
    simp only [concatBytes]
    by_cases h92 : b = 92
    · subst h92
      simp [escStep2, escStep3, replaceL_cons, List.isPrefixOf, ih]
    · by_cases h10 : b = 10
      · subst h10
        simp [escStep2, escStep3, replaceL_cons, List.isPrefixOf, ih]
      · by_cases h13 : b = 13
        · subst h13
          simp [escStep2, escStep3, replaceL_cons, List.isPrefixOf, ih]
        · simp [escStep2, escStep3, h92, h10, h13, replaceL_cons,
            List.isPrefixOf, beq_ne_false h13, ih]

theorem esc_stage4 (d : Bytes) :
    replaceL 9 [] [92, 116] (concatBytes escStep3 d) = concatBytes escByte d := by
  induction d with
  | nil => simp [replaceL, concatBytes]
  | cons b bs ih =>
    simp only [concatBytes]
    by_cases h92 : b = 92
    · subst h92
      simp [escStep3, escByte, replaceL_cons, List.isPrefixOf, ih]
    · by_cases h10 : b = 10
      · subst h10
        simp [escStep3, escByte, replaceL_cons, List.isPrefixOf, ih]
      · by_cases h13 : b = 13
        · subst h13
          simp [escStep3, escByte, replaceL_cons, List.isPrefixOf, ih]
        · by_cases h9 : b = 9
          · subst h9
            simp [escStep3, escByte, replaceL_cons, List.isPrefixOf, ih]
          · simp [escStep3, escByte, h92, h10, h13, h9, replaceL_cons,
              List.isPrefixOf, beq_ne_false h9, ih]

theorem un_stage1 (d : Bytes) :
    replaceL 92 [92] [0] (concatBytes escByte d) = concatBytes unStep1 d := by
  induction d with
  | nil => simp [replaceL, concatBytes]
  | cons b bs ih =>
    simp only [concatBytes]
    by_cases h92 : b = 92
    · subst h92
      simp [escByte, unStep1, replaceL_cons, List.isPrefixOf, ih]
    · by_cases h10 : b = 10
      · subst h10
        simp [escByte, unStep1, replaceL_cons, List.isPrefixOf, ih]
      · by_cases h13 : b = 13
        · subst h13
          simp [escByte, unStep1, replaceL_cons, List.isPrefixOf, ih]
        · by_cases h9 : b = 9
          · subst h9
            simp [escByte, unStep1, replaceL_cons, List.isPrefixOf, ih]
          · simp [escByte, unStep1, h92, h10, h13, h9, replaceL_cons,
              List.isPrefixOf, beq_ne_false h92, ih]

theorem un_stage2 (d : Bytes) :
    replaceL 92 [110] [10] (concatBytes unStep1 d) = concatBytes unStep2 d := by
  induction d with
  | nil => simp [replaceL, concatBytes]
  | cons b bs ih =>
    simp only [concatBytes]
    by_cases h92 : b = 92
    · subst h92
      simp [unStep1, unStep2, replaceL_cons, List.isPrefixOf, ih]
    · by_cases h10 : b = 10
      · subst h10
        simp [unStep1, unStep2, replaceL_cons, List.isPrefixOf, ih]
      · by_cases h13 : b = 13
        · subst h13
          simp [unStep1, unStep2, replaceL_cons, List.isPrefixOf, ih]
        · by_cases h9 : b = 9
          · subst h9
            simp [unStep1, unStep2, replaceL_cons, List.isPrefixOf, ih]
          · simp [unStep1, unStep2, h92, h10, h13, h9, replaceL_cons,
              List.isPrefixOf, beq_ne_false h92, ih]

theorem un_stage3 (d : Bytes) :
    replaceL 92 [114] [13] (concatBytes unStep2 d) = concatBytes unStep3 d := by
  induction d with
  | nil => simp [replaceL, concatBytes]
  | cons b bs ih =>
    simp only [concatBytes]
    by_cases h92 : b = 92
    · subst h92
      simp [unStep2, unStep3, replaceL_cons, List.isPrefixOf, ih]
    · by_cases h10 : b = 10
      · subst h10
        simp [unStep2, unStep3, replaceL_cons, List.isPrefixOf, ih]
      · by_cases h13 : b = 13
        · subst h13
          simp [unStep2, unStep3, replaceL_cons, List.isPrefixOf, ih]
        · by_cases h9 : b = 9
          · subst h9
            simp [unStep2, unStep3, replaceL_cons, List.isPrefixOf, ih]
          · simp [unStep2, unStep3, h92, h10, h13, h9, replaceL_cons,
              List.isPrefixOf, beq_ne_false h92, ih]

theorem un_stage4 (d : Bytes) :
    replaceL 92 [116] [9] (concatBytes unStep3 d) = concatBytes unStep4 d := by
  induction d with
  | nil => simp [replaceL, concatBytes]
  | cons b bs ih =>
    simp only [concatBytes]
    by_cases h92 : b = 92
    · subst h92
      simp [unStep3, unStep4, replaceL_cons, List.isPrefixOf, ih]
    · by_cases h10 : b = 10
      · subst h10
        simp [unStep3, unStep4, replaceL_cons, List.isPrefixOf, ih]
      · by_cases h13 : b = 13
        · subst h13
          simp [unStep3, unStep4, replaceL_cons, List.isPrefixOf, ih]
        · by_cases h9 : b = 9
          · subst h9
            simp [unStep3, unStep4, replaceL_cons, List.isPrefixOf, ih]
          · simp [unStep3, unStep4, h92, h10, h13, h9, replaceL_cons,
              List.isPrefixOf, beq_ne_false h92, ih]

theorem un_stage5 (d : Bytes) (h : (0 : Nat) ∉ d) :
    replaceL 0 [] [92] (concatBytes unStep4 d) = d := by
  induction d with
  | nil => simp [replaceL, concatBytes]
  | cons b bs ih =>
    have hb0 : ¬ b = 0 := fun hb => h (hb ▸ List.mem_cons_self _ _)
    have hbs : (0 : Nat) ∉ bs := fun hm => h (List.mem_cons_of_mem _ hm)
    simp only [concatBytes]
    by_cases h92 : b = 92
    · subst h92
      simp [unStep4, replaceL_cons, List.isPrefixOf, ih hbs]
    · by_cases h10 : b = 10
      · subst h10
        simp [unStep4, replaceL_cons, List.isPrefixOf, ih hbs]
      · by_cases h13 : b = 13
        · subst h13
          simp [unStep4, replaceL_cons, List.isPrefixOf, ih hbs]
        · by_cases h9 : b = 9
          · subst h9
            simp [unStep4, replaceL_cons, List.isPrefixOf, ih hbs]
          · simp [unStep4, h92, h10, h13, h9, replaceL_cons,
              List.isPrefixOf, beq_ne_false hb0, ih hbs]

theorem escape_eq_concat (d : Bytes) : escape d = concatBytes escByte d := by
  rw [escape, esc_stage1, esc_stage2, esc_stage3, esc_stage4]

/-- C7 (amended): for every byte sequence containing no NUL byte, the
protocol unescape inverts the protocol escape exactly. -/
theorem unescape_escape_roundtrip (d : Bytes) (h : (0 : Nat) ∉ d) :
    unescape (escape d) = d := by
  rw [unescape, escape_eq_concat, un_stage1, un_stage2, un_stage3, un_stage4,
    un_stage5 d h]

/-- Witness for C7 (amended) on the NUL-free bytes `\nA`. -/
theorem unescape_escape_roundtrip_witness :
    (0 : Nat) ∉ ([92, 110, 65] : Bytes) ∧
    unescape (escape [92, 110, 65]) = [92, 110, 65] :=
  ⟨by decide, unescape_escape_roundtrip [92, 110, 65] (by decide)⟩

/-! ## C10: a PUT with no value token -/

theorem splitFirstSpace_of_not_mem (l : Bytes) (h : (32 : Nat) ∉ l) :
    splitFirstSpace l = none := by
  induction l with
  | nil => rfl
  | cons a as ih =>
    have ha : ¬ a = 32 := fun he => h (he ▸ List.mem_cons_self _ _)
    have has : (32 : Nat) ∉ as := fun hm => h (List.mem_cons_of_mem _ hm)
    rw [splitFirstSpace, if_neg ha, ih has]

theorem splitFirstSpace_append (k rest : Bytes) (h : (32 : Nat) ∉ k) :
    splitFirstSpace (k ++ 32 :: rest) = some (k, rest) := by
  induction k with
  | nil => simp [splitFirstSpace]
  | cons a as ih =>
    have ha : ¬ a = 32 := fun he => h (he ▸ List.mem_cons_self _ _)
    have has : (32 : Nat) ∉ as := fun hm => h (List.mem_cons_of_mem _ hm)
    rw [List.cons_append, splitFirstSpace, if_neg ha, ih has]

theorem unescape_nil : unescape [] = [] := by
  simp [unescape, replaceL]

theorem splitSpace_succ (m : Nat) (l : Bytes) :
    splitSpace (m + 1) l =
      match splitFirstSpace l with
      | none => [l]
      | some (before, after) => before :: splitSpace m after := rfl

/-- C10: a two-token `PUT <key>` message, for a key free of space and
newline bytes, parses without error to the command `PUT`, that key, and
the empty value (the missing third token becomes `b''`). -/
theorem parse_put_two_tokens (k : Bytes) (hsp : (32 : Nat) ∉ k)
    (hnl : (10 : Nat) ∉ k) :
    parseCommand ([80, 85, 84, 32] ++ k) =
      Except.ok (cmdPUT, some k, some []) := by
  have hsplit1 : splitFirstSpace (80 :: 85 :: 84 :: 32 :: k) =
      some ([80, 85, 84], k) :=
    splitFirstSpace_append [80, 85, 84] k (by decide)
  have hsplit0 : splitFirstSpace k = none := splitFirstSpace_of_not_mem k hsp
  have hparts : splitSpace 2 (80 :: 85 :: 84 :: 32 :: k) = [[80, 85, 84], k] := by
    rw [show (2 : Nat) = 1 + 1 from rfl, splitSpace_succ, hsplit1]
    show ([80, 85, 84] : Bytes) :: splitSpace 1 k = [[80, 85, 84], k]
    rw [show (1 : Nat) = 0 + 1 from rfl, splitSpace_succ, hsplit0]
  simp [parseCommand, hparts, byteUpper, cmdPUT, cmdREPLICATE, cmdBATCHPUT,
    cmdREADRANGE, cmdREAD, cmdDELETE, parsePutCommand, unescape_nil]

/-- Witness for C10 at the message `PUT k`. -/
theorem parse_put_two_tokens_witness :
    (32 : Nat) ∉ ([107] : Bytes) ∧ (10 : Nat) ∉ ([107] : Bytes) ∧
    parseCommand [80, 85, 84, 32, 107] =
      Except.ok (cmdPUT, some [107], some []) :=
  ⟨by decide, by decide, parse_put_two_tokens [107] (by decide) (by decide)⟩

end KVStore
